import Mathlib

set_option maxRecDepth 400000

/-!
# Verification of the Leitner scheduling / answer-grading engine

Shallow embedding of the core logic of `germanturkce.py`: the Leitner
scheduler (`schedule_next`, `update_after_answer`), the normalizers
(`de_normalize`, `tr_normalize`), the similarity scorer (`similarity`,
a faithful model of `difflib.SequenceMatcher(None, a, b).ratio()`),
the grader (`is_close_enough`), translation-list parsing
(`parse_translations`), the duplicate-ignoring translation insert
(`add_translation`), and the answer-handling path of the `/play/q`
route (`play_answer`).

Modelling conventions:
* Python strings are `List Char`; `str.lower` is modelled on the ASCII
  range plus the German/Turkish letters the application uses (Python's
  `'İ'.lower()` produces `"i̇"`, two code points; the model folds it to
  `'i'`); all other characters are fixed.  Python `\s` / `str.strip`
  whitespace is modelled as the six ASCII whitespace characters.
* Python floats are modelled as exact rationals (`ℚ`); the fuzzy
  threshold `0.88` is `88/100`.
* Timestamps are integers counting seconds; `datetime + timedelta(days=d)`
  is `t + 86400 * d`.
* `SequenceMatcher` is modelled without the autojunk heuristic, which is
  inactive for second sequences shorter than 200 characters.
-/

namespace GermanTurkce

/-! ## Leitner scheduler -/

/-- `LEITNER_INTERVALS_DAYS = {1: 0, 2: 1, 3: 3, 4: 7, 5: 14}`. -/
def LEITNER_INTERVALS_DAYS : List (ℤ × ℤ) := [(1, 0), (2, 1), (3, 3), (4, 7), (5, 14)]

/-- Python `dict.get(key, default)` on an association list. -/
def dictGetD (d : List (ℤ × ℤ)) (key dflt : ℤ) : ℤ :=
  match d.find? (fun p => decide (p.1 = key)) with
  | some p => p.2
  | none => dflt

/-- `add_days_iso(days)`: current time plus `days` days, in seconds. -/
def add_days_iso (now days : ℤ) : ℤ := now + 86400 * days

/-- `schedule_next(box)`: due time is now plus the box's interval,
with `LEITNER_INTERVALS_DAYS.get(box, 0)`. -/
def schedule_next (now box : ℤ) : ℤ :=
  add_days_iso now (dictGetD LEITNER_INTERVALS_DAYS box 0)

/-- The pure content of `update_after_answer`: the new box and the new
due timestamp computed from the answer verdict and the current box. -/
def update_after_answer (was_correct : Bool) (current_box now : ℤ) : ℤ × ℤ :=
  let new_box : ℤ := if was_correct then min 5 (current_box + 1) else 1
  (new_box, schedule_next now new_box)

/-- A row of the `words` table (the fields touched by an answer). -/
structure WordRow where
  box : ℤ
  correct_count : ℤ
  wrong_count : ℤ
  updated_at : ℤ
  last_seen_at : ℤ
  next_due_at : ℤ
deriving DecidableEq, Repr

/-- The SQL `UPDATE` performed by `update_after_answer` on the word row:
set the box and due date, bump the matching counter, and refresh the
`updated_at` / `last_seen_at` timestamps. -/
def applyAnswer (w : WordRow) (was_correct : Bool) (now : ℤ) : WordRow :=
  let r := update_after_answer was_correct w.box now
  { box := r.1
    correct_count := if was_correct then w.correct_count + 1 else w.correct_count
    wrong_count := if was_correct then w.wrong_count else w.wrong_count + 1
    updated_at := now
    last_seen_at := now
    next_due_at := r.2 }

/-! ## Normalizers -/

/-- Python whitespace (`\s`, `str.strip`) restricted to ASCII:
space, tab, newline, carriage return, vertical tab, form feed. -/
def pySpace (c : Char) : Bool :=
  c = ' ' || c = '\t' || c = '\n' || c = '\r' || c = '\x0b' || c = '\x0c'

/-- Python `str.lower` on one character, modelled for ASCII letters and
the German/Turkish letters used by the application (`'İ'` folded to
`'i'`, see the module docstring); all other characters are fixed. -/
def charLower (c : Char) : Char :=
  match c with
  | 'A' => 'a' | 'B' => 'b' | 'C' => 'c' | 'D' => 'd' | 'E' => 'e' | 'F' => 'f'
  | 'G' => 'g' | 'H' => 'h' | 'I' => 'i' | 'J' => 'j' | 'K' => 'k' | 'L' => 'l'
  | 'M' => 'm' | 'N' => 'n' | 'O' => 'o' | 'P' => 'p' | 'Q' => 'q' | 'R' => 'r'
  | 'S' => 's' | 'T' => 't' | 'U' => 'u' | 'V' => 'v' | 'W' => 'w' | 'X' => 'x'
  | 'Y' => 'y' | 'Z' => 'z'
  | 'Ä' => 'ä' | 'Ö' => 'ö' | 'Ü' => 'ü' | 'ẞ' => 'ß'
  | 'Ç' => 'ç' | 'Ğ' => 'ğ' | 'İ' => 'i' | 'Ş' => 'ş'
  | c => c

/-- Python `str.lower` on a string. -/
def strLower (l : List Char) : List Char := l.map charLower

/-- Python `str.strip`: drop leading and trailing whitespace. -/
def pyStrip (l : List Char) : List Char :=
  (l.dropWhile pySpace).rdropWhile pySpace

/-- Python `re.sub(r"\s+", " ", s)`: replace each maximal whitespace run
by a single space (a whitespace character followed by more whitespace is
dropped; the last one of a run becomes `' '`). -/
def collapseWs : List Char → List Char
  | [] => []
  | [c] => if pySpace c then [' '] else [c]
  | c :: d :: rest =>
    if pySpace c then
      if pySpace d then collapseWs (d :: rest)
      else ' ' :: collapseWs (d :: rest)
    else c :: collapseWs (d :: rest)

/-- Python `str.replace(t, sub)` for a single-character needle. -/
def replaceChar (t : Char) (sub : List Char) (l : List Char) : List Char :=
  l.flatMap (fun c => if c = t then sub else [c])

/-- `de_normalize`: strip, lower-case, collapse whitespace, then fold
`ß→ss`, `ä→ae`, `ö→oe`, `ü→ue`. -/
def de_normalize (s : List Char) : List Char :=
  replaceChar 'ü' ['u', 'e']
    (replaceChar 'ö' ['o', 'e']
      (replaceChar 'ä' ['a', 'e']
        (replaceChar 'ß' ['s', 's']
          (collapseWs (strLower (pyStrip s))))))

/-- `tr_normalize`: strip, lower-case, collapse whitespace. -/
def tr_normalize (s : List Char) : List Char :=
  collapseWs (strLower (pyStrip s))

/-! ## Character-level lemmas for the normalizers -/

/-- The lower-case characters `charLower` can produce. -/
def lowOutputs : List Char :=
  ['a', 'b', 'c', 'd', 'e', 'f', 'g', 'h', 'i', 'j', 'k', 'l', 'm',
   'n', 'o', 'p', 'q', 'r', 's', 't', 'u', 'v', 'w', 'x', 'y', 'z',
   'ä', 'ö', 'ü', 'ß', 'ç', 'ğ', 'ş']

/-- `charLower` either fixes its argument or returns one of its
lower-case outputs. -/
theorem charLower_cases (c : Char) : charLower c = c ∨ charLower c ∈ lowOutputs := by
  unfold charLower
  split
  all_goals first
    | (right; decide)
    | (left; rfl)

/-- Every producible lower-case output is a `charLower` fixed point. -/
theorem lowOutputs_fix : ∀ d ∈ lowOutputs, charLower d = d := by decide

/-- No producible lower-case output is whitespace. -/
theorem lowOutputs_nonspace : ∀ d ∈ lowOutputs, pySpace d = false := by decide

/-- `charLower` is idempotent. -/
theorem charLower_idem (c : Char) : charLower (charLower c) = charLower c := by
  rcases charLower_cases c with h | h
  · rw [h, h]
  · exact lowOutputs_fix _ h

/-- Whitespace characters are `charLower` fixed points. -/
theorem charLower_space (c : Char) (h : pySpace c = true) : charLower c = c := by
  simp only [pySpace, Bool.or_eq_true, decide_eq_true_eq] at h
  rcases h with ((((h | h) | h) | h) | h) | h <;> subst h <;> decide

/-- `charLower` preserves whitespace-ness. -/
theorem charLower_pySpace (c : Char) : pySpace (charLower c) = pySpace c := by
  by_cases hs : pySpace c = true
  · rw [charLower_space c hs]
  · rcases charLower_cases c with h | h
    · rw [h]
    · rw [lowOutputs_nonspace _ h]
      simp only [Bool.not_eq_true] at hs
      rw [hs]

/-! ## Lemmas about `collapseWs` -/

/-- Collapsing keeps a leading non-whitespace character. -/
theorem collapse_cons_nonspace (c : Char) (t : List Char) (h : pySpace c = false) :
    collapseWs (c :: t) = c :: collapseWs t := by
  cases t with
  | nil => simp [collapseWs, h]
  | cons d t' => simp [collapseWs, h]

/-- Collapsing a whitespace character followed by a non-whitespace
head (or nothing) yields a single space. -/
theorem collapse_cons_space (c : Char) (X : List Char) (h : pySpace c = true)
    (hX : ∀ d, X.head? = some d → pySpace d = false) :
    collapseWs (c :: X) = ' ' :: collapseWs X := by
  cases X with
  | nil => simp [collapseWs, h]
  | cons d t' =>
    have hd : pySpace d = false := hX d rfl
    simp [collapseWs, h, hd]

/-- Collapsing a nonempty list yields a nonempty list. -/
theorem collapse_ne_nil : ∀ l : List Char, l ≠ [] → collapseWs l ≠ [] := by
  intro l
  induction l with
  | nil => intro h; exact absurd rfl h
  | cons c rest ih =>
    intro _
    cases rest with
    | nil =>
      by_cases h : pySpace c = true <;> simp [collapseWs, h]
    | cons d rest' =>
      by_cases h : pySpace c = true
      · by_cases hd : pySpace d = true
        · simpa [collapseWs, h, hd] using ih (by simp)
        · simp [collapseWs, h, hd]
      · simp [collapseWs, h]

/-- Collapsing is idempotent. -/
theorem collapse_idem : ∀ l : List Char, collapseWs (collapseWs l) = collapseWs l := by
  intro l
  induction l with
  | nil => rfl
  | cons c rest ih =>
    cases rest with
    | nil =>
      by_cases h : pySpace c = true <;> simp [collapseWs, h]
    | cons d rest' =>
      by_cases h : pySpace c = true
      · by_cases hd : pySpace d = true
        · rw [show collapseWs (c :: d :: rest') = collapseWs (d :: rest') from by
              simp [collapseWs, h, hd]]
          exact ih
        · have hd' : pySpace d = false := by simpa using hd
          rw [show collapseWs (c :: d :: rest') = ' ' :: collapseWs (d :: rest') from by
              simp [collapseWs, h, hd]]
          rw [collapse_cons_nonspace d rest' hd']
          rw [collapse_cons_space ' ' (d :: collapseWs rest') (by decide)
              (fun e he => by simp at he; rw [← he]; exact hd')]
          rw [← collapse_cons_nonspace d rest' hd', ih]
      · simp only [Bool.not_eq_true] at h
        rw [collapse_cons_nonspace c (d :: rest') h, collapse_cons_nonspace c _ h, ih]

/-- Every character of a collapsed list is either a space or a
non-whitespace character of the original list. -/
theorem mem_collapse : ∀ (l : List Char) (x : Char), x ∈ collapseWs l → x = ' ' ∨ x ∈ l := by
  intro l
  induction l with
  | nil => intro x hx; simp [collapseWs] at hx
  | cons c rest ih =>
    intro x hx
    cases rest with
    | nil =>
      by_cases h : pySpace c = true <;> simp [collapseWs, h] at hx <;> simp [hx]
    | cons d rest' =>
      by_cases h : pySpace c = true
      · by_cases hd : pySpace d = true
        · rw [show collapseWs (c :: d :: rest') = collapseWs (d :: rest') from by
              simp [collapseWs, h, hd]] at hx
          rcases ih x hx with h' | h'
          · exact Or.inl h'
          · exact Or.inr (List.mem_cons_of_mem _ h')
        · rw [show collapseWs (c :: d :: rest') = ' ' :: collapseWs (d :: rest') from by
              simp [collapseWs, h, hd]] at hx
          rcases List.mem_cons.mp hx with h' | h'
          · exact Or.inl h'
          · rcases ih x h' with h'' | h''
            · exact Or.inl h''
            · exact Or.inr (List.mem_cons_of_mem _ h'')
      · simp only [Bool.not_eq_true] at h
        rw [collapse_cons_nonspace c (d :: rest') h] at hx
        rcases List.mem_cons.mp hx with h' | h'
        · exact Or.inr (h' ▸ List.mem_cons_self _ _)
        · rcases ih x h' with h'' | h''
          · exact Or.inl h''
          · exact Or.inr (List.mem_cons_of_mem _ h'')

/-! ## Leading/trailing whitespace tracking -/

/-- The first character, if any, is not whitespace. -/
def headOK (l : List Char) : Prop := ∀ x, l.head? = some x → pySpace x = false

/-- The last character, if any, is not whitespace. -/
def lastOK (l : List Char) : Prop := ∀ x, l.getLast? = some x → pySpace x = false

/-- A whitespace and a non-whitespace character differ. -/
theorem ne_of_space_nonspace {c t : Char} (hc : pySpace c = true)
    (ht : pySpace t = false) : c ≠ t := by
  intro e
  rw [e, ht] at hc
  cases hc

/-- An initial segment inherits `headOK`. -/
theorem headOK_mono {X m : List Char} (hp : X <+: m) (h : headOK m) : headOK X := by
  obtain ⟨s, rfl⟩ := hp
  intro x hx
  cases X with
  | nil => simp at hx
  | cons y Y =>
    simp only [List.head?_cons, Option.some.injEq] at hx
    exact h x (by rw [List.cons_append, List.head?_cons, hx])

/-- The stripped string has no leading whitespace. -/
theorem pyStrip_headOK (l : List Char) : headOK (pyStrip l) := by
  unfold pyStrip
  have hpre := List.rdropWhile_prefix pySpace (l.dropWhile pySpace)
  refine headOK_mono hpre ?_
  intro x hx
  rcases hw : l.dropWhile pySpace with _ | ⟨y, Y⟩
  · rw [hw] at hx
    simp at hx
  · have hne : l.dropWhile pySpace ≠ [] := by rw [hw]; simp
    have := List.head_dropWhile_not pySpace l hne
    rw [List.head?_eq_head hne] at hx
    have hxx : (l.dropWhile pySpace).head hne = x := by injection hx
    rw [← hxx]
    simpa using this

/-- The stripped string has no trailing whitespace. -/
theorem pyStrip_lastOK (l : List Char) : lastOK (pyStrip l) := by
  unfold pyStrip
  intro x hx
  have hne : (l.dropWhile pySpace).rdropWhile pySpace ≠ [] := by
    intro h0
    rw [h0] at hx
    simp at hx
  have := List.rdropWhile_last_not pySpace (l.dropWhile pySpace) hne
  rw [List.getLast?_eq_getLast_of_ne_nil hne] at hx
  have hxx : ((l.dropWhile pySpace).rdropWhile pySpace).getLast hne = x := by injection hx
  rw [← hxx]
  simpa using this

/-- Stripping fixes a string with no leading and no trailing
whitespace. -/
theorem pyStrip_eq_self {l : List Char} (h1 : headOK l) (h2 : lastOK l) :
    pyStrip l = l := by
  unfold pyStrip
  have e1 : l.dropWhile pySpace = l := by
    cases l with
    | nil => rfl
    | cons c t =>
      have hc : pySpace c = false := h1 c rfl
      simp [List.dropWhile_cons, hc]
  rw [e1]
  rw [List.rdropWhile_eq_self_iff]
  intro hl
  have := h2 (l.getLast hl) (List.getLast?_eq_getLast_of_ne_nil hl)
  simp [this]

/-- `headOK` survives collapsing. -/
theorem collapse_headOK {l : List Char} (h : headOK l) : headOK (collapseWs l) := by
  cases l with
  | nil => intro x hx; simp [collapseWs] at hx
  | cons c t =>
    have hc : pySpace c = false := h c rfl
    rw [collapse_cons_nonspace c t hc]
    intro x hx
    simp only [List.head?_cons, Option.some.injEq] at hx
    rw [← hx]
    exact hc

/-- `lastOK` survives collapsing. -/
theorem collapse_lastOK : ∀ l : List Char, lastOK l → lastOK (collapseWs l) := by
  intro l
  induction l with
  | nil => intro _ x hx; simp [collapseWs] at hx
  | cons c rest ih =>
    intro h
    cases rest with
    | nil =>
      have hc : pySpace c = false := h c rfl
      simp only [collapseWs, hc]
      simpa [lastOK] using h
    | cons d rest' =>
      have htail : lastOK (d :: rest') := by
        intro x hx
        exact h x (by rw [List.getLast?_cons_cons]; exact hx)
      have hX : collapseWs (d :: rest') ≠ [] := collapse_ne_nil _ (by simp)
      obtain ⟨y, Y, hyY⟩ := List.exists_cons_of_ne_nil hX
      by_cases hc : pySpace c = true
      · by_cases hd : pySpace d = true
        · rw [show collapseWs (c :: d :: rest') = collapseWs (d :: rest') from by
              simp [collapseWs, hc, hd]]
          exact ih htail
        · rw [show collapseWs (c :: d :: rest') = ' ' :: collapseWs (d :: rest') from by
              simp [collapseWs, hc, hd]]
          intro x hx
          rw [hyY, List.getLast?_cons_cons] at hx
          exact ih htail x (by rw [hyY]; exact hx)
      · simp only [Bool.not_eq_true] at hc
        rw [collapse_cons_nonspace c (d :: rest') hc]
        intro x hx
        rw [hyY, List.getLast?_cons_cons] at hx
        exact ih htail x (by rw [hyY]; exact hx)

/-! ## Lemmas about `replaceChar` -/

theorem replaceChar_cons (t : Char) (sub : List Char) (c : Char) (l : List Char) :
    replaceChar t sub (c :: l) = (if c = t then sub else [c]) ++ replaceChar t sub l := by
  simp [replaceChar]

/-- Characters of a replaced string come from the substitution or are
non-`t` characters of the original. -/
theorem mem_replaceChar {t : Char} {sub l : List Char} {x : Char}
    (hx : x ∈ replaceChar t sub l) : x ∈ sub ∨ (x ∈ l ∧ x ≠ t) := by
  unfold replaceChar at hx
  rw [List.mem_flatMap] at hx
  obtain ⟨a, ha, hx⟩ := hx
  by_cases h : a = t
  · rw [if_pos h] at hx
    exact Or.inl hx
  · rw [if_neg h] at hx
    simp only [List.mem_singleton] at hx
    subst hx
    exact Or.inr ⟨ha, h⟩

/-- Replacing fixes a string not containing the needle. -/
theorem replaceChar_eq_self {t : Char} {sub : List Char} :
    ∀ {l : List Char}, (∀ x ∈ l, x ≠ t) → replaceChar t sub l = l := by
  intro l
  induction l with
  | nil => intro _; rfl
  | cons c w ih =>
    intro h
    rw [replaceChar_cons, if_neg (h c (List.mem_cons_self _ _))]
    rw [List.singleton_append, ih (fun x hx => h x (List.mem_cons_of_mem _ hx))]

/-- Replacement of a nonempty string by a nonempty substitution is
nonempty. -/
theorem replaceChar_ne_nil {t : Char} {sub l : List Char} (hsub : sub ≠ [])
    (hl : l ≠ []) : replaceChar t sub l ≠ [] := by
  cases l with
  | nil => exact absurd rfl hl
  | cons c w =>
    rw [replaceChar_cons]
    intro h0
    rcases List.append_eq_nil.mp h0 with ⟨h1, _⟩
    by_cases h : c = t
    · rw [if_pos h] at h1; exact hsub h1
    · rw [if_neg h] at h1; cases h1

/-- `headOK` survives replacement by non-whitespace characters. -/
theorem headOK_replaceChar {t : Char} {sub l : List Char} (ht : pySpace t = false)
    (hsub : ∀ x ∈ sub, pySpace x = false) (hs : sub ≠ []) (h : headOK l) :
    headOK (replaceChar t sub l) := by
  cases l with
  | nil => intro x hx; simp [replaceChar] at hx
  | cons c w =>
    rw [replaceChar_cons]
    by_cases hc : c = t
    · rw [if_pos hc]
      obtain ⟨s0, subT, rfl⟩ := List.exists_cons_of_ne_nil hs
      intro x hx
      simp only [List.cons_append, List.head?_cons, Option.some.injEq] at hx
      rw [← hx]
      exact hsub s0 (List.mem_cons_self _ _)
    · rw [if_neg hc, List.singleton_append]
      intro x hx
      simp only [List.head?_cons, Option.some.injEq] at hx
      rw [← hx]
      exact h c rfl

/-- `lastOK` survives replacement by non-whitespace characters. -/
theorem lastOK_replaceChar {t : Char} {sub : List Char} (ht : pySpace t = false)
    (hsub : ∀ x ∈ sub, pySpace x = false) (hs : sub ≠ []) :
    ∀ l : List Char, lastOK l → lastOK (replaceChar t sub l) := by
  intro l
  induction l with
  | nil => intro _ x hx; simp [replaceChar] at hx
  | cons c w ih =>
    intro h
    cases w with
    | nil =>
      rw [replaceChar_cons]
      by_cases hc : c = t
      · rw [if_pos hc]
        intro x hx
        rw [show replaceChar t sub [] = [] from rfl, List.append_nil] at hx
        have hmem : x ∈ sub := by
          obtain ⟨hne, he⟩ := List.mem_getLast?_eq_getLast hx
          rw [he]
          exact List.getLast_mem hne
        exact hsub x hmem
      · rw [if_neg hc]
        intro x hx
        rw [show replaceChar t sub [] = [] from rfl, List.append_nil] at hx
        simp only [List.getLast?_singleton, Option.some.injEq] at hx
        rw [← hx]
        exact h c rfl
    | cons d w' =>
      rw [replaceChar_cons]
      have htail : lastOK (d :: w') := by
        intro x hx
        exact h x (by rw [List.getLast?_cons_cons]; exact hx)
      have hne : replaceChar t sub (d :: w') ≠ [] := replaceChar_ne_nil hs (by simp)
      intro x hx
      rw [List.getLast?_append_of_ne_nil _ hne] at hx
      exact ih htail x hx

/-! ## Commutation lemmas and normalizer idempotence -/

/-- Lower-casing commutes with whitespace collapsing (lower-casing
fixes spaces and preserves whitespace-ness). -/
theorem strLower_collapse_comm : ∀ l : List Char,
    strLower (collapseWs l) = collapseWs (strLower l) := by
  intro l
  induction l with
  | nil => rfl
  | cons c rest ih =>
    cases rest with
    | nil =>
      by_cases h : pySpace c = true
      · rw [show collapseWs [c] = [' '] from by simp [collapseWs, h]]
        rw [show strLower [c] = [charLower c] from rfl]
        rw [show collapseWs [charLower c] = [' '] from by
          simp [collapseWs, charLower_pySpace, h]]
        rfl
      · simp only [Bool.not_eq_true] at h
        rw [show collapseWs [c] = [c] from by simp [collapseWs, h]]
        rw [show strLower [c] = [charLower c] from rfl]
        rw [show collapseWs [charLower c] = [charLower c] from by
          simp [collapseWs, charLower_pySpace, h]]
    | cons d rest' =>
      have hL : strLower (c :: d :: rest') = charLower c :: charLower d :: strLower rest' :=
        rfl
      by_cases h : pySpace c = true
      · by_cases hd : pySpace d = true
        · rw [show collapseWs (c :: d :: rest') = collapseWs (d :: rest') from by
              simp [collapseWs, h, hd]]
          rw [ih, hL]
          rw [show collapseWs (charLower c :: charLower d :: strLower rest')
              = collapseWs (charLower d :: strLower rest') from by
            simp [collapseWs, charLower_pySpace, h, hd]]
          rfl
        · rw [show collapseWs (c :: d :: rest') = ' ' :: collapseWs (d :: rest') from by
              simp [collapseWs, h, hd]]
          rw [show strLower (' ' :: collapseWs (d :: rest'))
              = ' ' :: strLower (collapseWs (d :: rest')) from rfl]
          rw [ih, hL]
          rw [show collapseWs (charLower c :: charLower d :: strLower rest')
              = ' ' :: collapseWs (charLower d :: strLower rest') from by
            simp [collapseWs, charLower_pySpace, h, hd]]
          rfl
      · simp only [Bool.not_eq_true] at h
        rw [collapse_cons_nonspace c (d :: rest') h]
        rw [show strLower (c :: collapseWs (d :: rest'))
            = charLower c :: strLower (collapseWs (d :: rest')) from rfl]
        rw [ih, hL]
        rw [collapse_cons_nonspace (charLower c) _ (by rw [charLower_pySpace]; exact h)]
        rfl

/-- Lower-casing fixes a string of `charLower` fixed points. -/
theorem strLower_eq_self {l : List Char} (h : ∀ x ∈ l, charLower x = x) :
    strLower l = l := by
  unfold strLower
  induction l with
  | nil => rfl
  | cons c w ih =>
    rw [List.map_cons, h c (List.mem_cons_self _ _),
      ih (fun x hx => h x (List.mem_cons_of_mem _ hx))]

/-- `headOK` survives lower-casing. -/
theorem headOK_strLower {l : List Char} (h : headOK l) : headOK (strLower l) := by
  cases l with
  | nil => intro x hx; simp [strLower] at hx
  | cons c t =>
    intro x hx
    simp only [strLower, List.map_cons, List.head?_cons, Option.some.injEq] at hx
    rw [← hx, charLower_pySpace]
    exact h c rfl

/-- `lastOK` survives lower-casing. -/
theorem lastOK_strLower : ∀ l : List Char, lastOK l → lastOK (strLower l) := by
  intro l
  induction l with
  | nil => intro _ x hx; simp [strLower] at hx
  | cons c w ih =>
    intro h
    cases w with
    | nil =>
      intro x hx
      simp only [strLower, List.map_cons, List.map_nil, List.getLast?_singleton,
        Option.some.injEq] at hx
      rw [← hx, charLower_pySpace]
      exact h c rfl
    | cons d w' =>
      have htail : lastOK (d :: w') := by
        intro x hx
        exact h x (by rw [List.getLast?_cons_cons]; exact hx)
      intro x hx
      rw [show strLower (c :: d :: w') = charLower c :: strLower (d :: w') from rfl] at hx
      rw [show strLower (d :: w') = charLower d :: strLower w' from rfl] at hx
      rw [List.getLast?_cons_cons] at hx
      refine ih htail x ?_
      rw [show strLower (d :: w') = charLower d :: strLower w' from rfl]
      exact hx

/-- Collapsing commutes with appending an all-non-whitespace chunk. -/
theorem collapse_append_nonspace {ch : List Char} (h : ∀ z ∈ ch, pySpace z = false) :
    ∀ L : List Char, collapseWs (ch ++ L) = ch ++ collapseWs L := by
  induction ch with
  | nil => intro L; rfl
  | cons z ch' ih =>
    intro L
    rw [List.cons_append,
      collapse_cons_nonspace z (ch' ++ L) (h z (List.mem_cons_self _ _)),
      ih (fun x hx => h x (List.mem_cons_of_mem _ hx)) L, List.cons_append]

/-- Collapsing commutes with a two-character non-whitespace
substitution for a non-whitespace needle. -/
theorem collapse_replaceChar_comm {t x y : Char} (ht : pySpace t = false)
    (hx : pySpace x = false) (hy : pySpace y = false) :
    ∀ l : List Char, collapseWs (replaceChar t [x, y] l)
      = replaceChar t [x, y] (collapseWs l) := by
  have hsubns : ∀ z ∈ [x, y], pySpace z = false := by
    intro z hz
    rcases List.mem_cons.mp hz with h | h
    · rw [h]; exact hx
    · simp only [List.mem_singleton] at h
      rw [h]; exact hy
  have hsp : (' ' : Char) ≠ t := ne_of_space_nonspace (by decide) ht
  intro l
  induction l with
  | nil => rfl
  | cons c rest ih =>
    cases rest with
    | nil =>
      by_cases hc : pySpace c = true
      · have hct : c ≠ t := ne_of_space_nonspace hc ht
        rw [show replaceChar t [x, y] [c] = [c] from by
            rw [replaceChar_cons, if_neg hct]; rfl]
        rw [show collapseWs [c] = [' '] from by simp [collapseWs, hc]]
        rw [show replaceChar t [x, y] [' '] = [' '] from by
          rw [replaceChar_cons, if_neg hsp]; rfl]
      · simp only [Bool.not_eq_true] at hc
        rw [show collapseWs [c] = [c] from by simp [collapseWs, hc]]
        by_cases hct : c = t
        · rw [replaceChar_cons, if_pos hct]
          rw [show replaceChar t [x, y] [] = [] from rfl, List.append_nil]
          rw [collapse_cons_nonspace x [y] hx, collapse_cons_nonspace y [] hy]
          rfl
        · rw [replaceChar_cons, if_neg hct]
          rw [show replaceChar t [x, y] [] = [] from rfl, List.append_nil]
          simp [collapseWs, hc]
    | cons d rest' =>
      by_cases hc : pySpace c = true
      · have hct : c ≠ t := ne_of_space_nonspace hc ht
        have e1 : replaceChar t [x, y] (c :: d :: rest')
            = c :: replaceChar t [x, y] (d :: rest') := by
          rw [replaceChar_cons, if_neg hct]; rfl
        by_cases hd : pySpace d = true
        · have hdt : d ≠ t := ne_of_space_nonspace hd ht
          have e2 : replaceChar t [x, y] (d :: rest')
              = d :: replaceChar t [x, y] rest' := by
            rw [replaceChar_cons, if_neg hdt]; rfl
          rw [e1, e2,
            show collapseWs (c :: d :: replaceChar t [x, y] rest')
              = collapseWs (d :: replaceChar t [x, y] rest') from by
                simp [collapseWs, hc, hd],
            ← e2, ih,
            show collapseWs (c :: d :: rest') = collapseWs (d :: rest') from by
              simp [collapseWs, hc, hd]]
        · simp only [Bool.not_eq_true] at hd
          have hhead : headOK (replaceChar t [x, y] (d :: rest')) := by
            refine headOK_replaceChar ht hsubns (by simp) ?_
            intro e he
            simp only [List.head?_cons, Option.some.injEq] at he
            rw [← he]; exact hd
          rw [e1, collapse_cons_space c _ hc hhead, ih,
            show collapseWs (c :: d :: rest') = ' ' :: collapseWs (d :: rest') from by
              simp [collapseWs, hc, hd],
            replaceChar_cons, if_neg hsp]
          rfl
      · simp only [Bool.not_eq_true] at hc
        have e1 : replaceChar t [x, y] (c :: d :: rest')
            = (if c = t then [x, y] else [c]) ++ replaceChar t [x, y] (d :: rest') :=
          replaceChar_cons t [x, y] c (d :: rest')
        have hch : ∀ z ∈ (if c = t then [x, y] else [c]), pySpace z = false := by
          by_cases hct : c = t
          · rw [if_pos hct]; exact hsubns
          · rw [if_neg hct]
            intro z hz
            simp only [List.mem_singleton] at hz
            rw [hz]; exact hc
        rw [e1, collapse_append_nonspace hch _, ih,
          collapse_cons_nonspace c (d :: rest') hc, replaceChar_cons]

/-- The four diacritic substitutions of `de_normalize`. -/
def deFold (s : List Char) : List Char :=
  replaceChar 'ü' ['u', 'e']
    (replaceChar 'ö' ['o', 'e']
      (replaceChar 'ä' ['a', 'e'] (replaceChar 'ß' ['s', 's'] s)))

theorem de_normalize_eq_fold (s : List Char) :
    de_normalize s = deFold (tr_normalize s) := rfl

/-- The output of `tr_normalize` has no leading whitespace. -/
theorem tr_normalize_headOK (x : List Char) : headOK (tr_normalize x) :=
  collapse_headOK (headOK_strLower (pyStrip_headOK x))

/-- The output of `tr_normalize` has no trailing whitespace. -/
theorem tr_normalize_lastOK (x : List Char) : lastOK (tr_normalize x) :=
  collapse_lastOK _ (lastOK_strLower _ (pyStrip_lastOK x))

/-- Every character of a normalized string is a `charLower` fixed
point. -/
theorem tr_normalize_lowerFix (x : List Char) :
    ∀ z ∈ tr_normalize x, charLower z = z := by
  intro z hz
  unfold tr_normalize at hz
  rcases mem_collapse _ z hz with h | h
  · rw [h]; decide
  · unfold strLower at h
    rw [List.mem_map] at h
    obtain ⟨w, _, rfl⟩ := h
    exact charLower_idem w

/-- The output of `tr_normalize` is already whitespace-collapsed. -/
theorem tr_normalize_collapseFix (x : List Char) :
    collapseWs (tr_normalize x) = tr_normalize x := by
  unfold tr_normalize
  exact collapse_idem _

/-- `tr_normalize` is idempotent. -/
theorem tr_normalize_idem (x : List Char) :
    tr_normalize (tr_normalize x) = tr_normalize x := by
  have h1 : pyStrip (tr_normalize x) = tr_normalize x :=
    pyStrip_eq_self (tr_normalize_headOK x) (tr_normalize_lastOK x)
  have h2 : strLower (tr_normalize x) = tr_normalize x :=
    strLower_eq_self (tr_normalize_lowerFix x)
  show collapseWs (strLower (pyStrip (tr_normalize x))) = tr_normalize x
  rw [h1, h2, tr_normalize_collapseFix]

/-- The diacritic fold preserves `headOK`. -/
theorem deFold_headOK {l : List Char} (h : headOK l) : headOK (deFold l) := by
  unfold deFold
  refine headOK_replaceChar (by decide) (by decide) (by decide) ?_
  refine headOK_replaceChar (by decide) (by decide) (by decide) ?_
  refine headOK_replaceChar (by decide) (by decide) (by decide) ?_
  exact headOK_replaceChar (by decide) (by decide) (by decide) h

/-- The diacritic fold preserves `lastOK`. -/
theorem deFold_lastOK {l : List Char} (h : lastOK l) : lastOK (deFold l) := by
  unfold deFold
  refine lastOK_replaceChar (by decide) (by decide) (by decide) _ ?_
  refine lastOK_replaceChar (by decide) (by decide) (by decide) _ ?_
  refine lastOK_replaceChar (by decide) (by decide) (by decide) _ ?_
  exact lastOK_replaceChar (by decide) (by decide) (by decide) _ h

/-- The diacritic fold preserves lower-case-fixedness. -/
theorem deFold_lowerFix {l : List Char} (h : ∀ z ∈ l, charLower z = z) :
    ∀ z ∈ deFold l, charLower z = z := by
  intro z hz
  unfold deFold at hz
  rcases mem_replaceChar hz with h1 | ⟨hz1, _⟩
  · simp only [List.mem_cons, List.not_mem_nil, or_false] at h1
    rcases h1 with rfl | rfl <;> decide
  rcases mem_replaceChar hz1 with h2 | ⟨hz2, _⟩
  · simp only [List.mem_cons, List.not_mem_nil, or_false] at h2
    rcases h2 with rfl | rfl <;> decide
  rcases mem_replaceChar hz2 with h3 | ⟨hz3, _⟩
  · simp only [List.mem_cons, List.not_mem_nil, or_false] at h3
    rcases h3 with rfl | rfl <;> decide
  rcases mem_replaceChar hz3 with h4 | ⟨hz4, _⟩
  · simp only [List.mem_cons, List.not_mem_nil, or_false] at h4
    rcases h4 with rfl | rfl <;> decide
  exact h z hz4

/-- The diacritic fold commutes with whitespace collapsing. -/
theorem deFold_collapse_comm (l : List Char) :
    collapseWs (deFold l) = deFold (collapseWs l) := by
  unfold deFold
  rw [collapse_replaceChar_comm (by decide) (by decide) (by decide),
    collapse_replaceChar_comm (by decide) (by decide) (by decide),
    collapse_replaceChar_comm (by decide) (by decide) (by decide),
    collapse_replaceChar_comm (by decide) (by decide) (by decide)]

/-- The diacritic fold leaves none of its four target letters. -/
theorem deFold_noTargets (l : List Char) :
    ∀ z ∈ deFold l, z ≠ 'ß' ∧ z ≠ 'ä' ∧ z ≠ 'ö' ∧ z ≠ 'ü' := by
  intro z hz
  unfold deFold at hz
  rcases mem_replaceChar hz with h1 | ⟨hz1, hu⟩
  · simp only [List.mem_cons, List.not_mem_nil, or_false] at h1
    rcases h1 with rfl | rfl <;> exact ⟨by decide, by decide, by decide, by decide⟩
  rcases mem_replaceChar hz1 with h2 | ⟨hz2, ho⟩
  · simp only [List.mem_cons, List.not_mem_nil, or_false] at h2
    rcases h2 with rfl | rfl <;> exact ⟨by decide, by decide, by decide, by decide⟩
  rcases mem_replaceChar hz2 with h3 | ⟨hz3, ha⟩
  · simp only [List.mem_cons, List.not_mem_nil, or_false] at h3
    rcases h3 with rfl | rfl <;> exact ⟨by decide, by decide, by decide, by decide⟩
  rcases mem_replaceChar hz3 with h4 | ⟨_, hb⟩
  · simp only [List.mem_cons, List.not_mem_nil, or_false] at h4
    rcases h4 with rfl | rfl <;> exact ⟨by decide, by decide, by decide, by decide⟩
  exact ⟨hb, ha, ho, hu⟩

/-- The diacritic fold fixes a string containing none of its targets. -/
theorem deFold_fix {l : List Char}
    (h : ∀ z ∈ l, z ≠ 'ß' ∧ z ≠ 'ä' ∧ z ≠ 'ö' ∧ z ≠ 'ü') : deFold l = l := by
  unfold deFold
  rw [replaceChar_eq_self (fun z hz => (h z hz).1),
    replaceChar_eq_self (fun z hz => (h z hz).2.1),
    replaceChar_eq_self (fun z hz => (h z hz).2.2.1),
    replaceChar_eq_self (fun z hz => (h z hz).2.2.2)]

/-- `de_normalize` is idempotent. -/
theorem de_normalize_idem (s : List Char) :
    de_normalize (de_normalize s) = de_normalize s := by
  have hhead : headOK (de_normalize s) := by
    rw [de_normalize_eq_fold]
    exact deFold_headOK (tr_normalize_headOK s)
  have hlast : lastOK (de_normalize s) := by
    rw [de_normalize_eq_fold]
    exact deFold_lastOK (tr_normalize_lastOK s)
  have hlow : ∀ z ∈ de_normalize s, charLower z = z := by
    rw [de_normalize_eq_fold]
    exact deFold_lowerFix (tr_normalize_lowerFix s)
  have htn : tr_normalize (de_normalize s) = de_normalize s := by
    show collapseWs (strLower (pyStrip (de_normalize s))) = de_normalize s
    rw [pyStrip_eq_self hhead hlast, strLower_eq_self hlow, de_normalize_eq_fold,
      deFold_collapse_comm, tr_normalize_collapseFix]
  rw [de_normalize_eq_fold (de_normalize s), htn, de_normalize_eq_fold s]
  exact deFold_fix (deFold_noTargets _)

/-! ## Similarity scorer (`difflib.SequenceMatcher`)

`similarity(a, b) = SequenceMatcher(None, a, b).ratio()`.  The matcher
repeatedly finds the longest matching block — among the maximal-length
blocks the one starting earliest in `a`, then earliest in `b` — and
recurses on the pieces to the left and to the right; `ratio` is
`2 * M / (len(a) + len(b))` where `M` is the total size of the blocks
(and `1.0` when both strings are empty). -/

/-- Length of the longest common prefix of two lists. -/
def cpl : List Char → List Char → ℕ
  | x :: xs, y :: ys => if x = y then cpl xs ys + 1 else 0
  | _, _ => 0

/-- One step of the longest-matching-block scan: replace the current
best block by the block starting at `(i, j)` if it is strictly longer. -/
def flmStep (a b : List Char) (best : ℕ × ℕ × ℕ) (ij : ℕ × ℕ) : ℕ × ℕ × ℕ :=
  let k := cpl (a.drop ij.1) (b.drop ij.2)
  if best.2.2 < k then (ij.1, ij.2, k) else best

/-- All start positions `(i, j)`, in lexicographic order. -/
def candPairs (la lb : ℕ) : List (ℕ × ℕ) :=
  (List.range (la + 1)).flatMap (fun i => (List.range (lb + 1)).map (fun j => (i, j)))

/-- `SequenceMatcher.find_longest_match` over the whole strings: the
longest matching block, ties resolved to the lexicographically least
start position — the scan visits positions in lexicographic order and
replaces the best block only on strictly greater length. -/
def find_longest_match (a b : List Char) : ℕ × ℕ × ℕ :=
  (candPairs a.length b.length).foldl (flmStep a b) (0, 0, 0)

/-- `cpl` is bounded by the length of either argument. -/
theorem cpl_le_left : ∀ x y : List Char, cpl x y ≤ x.length := by
  intro x
  induction x with
  | nil => intro y; cases y <;> simp [cpl]
  | cons c xs ih =>
    intro y
    cases y with
    | nil => simp [cpl]
    | cons d ys =>
      by_cases h : c = d
      · simp only [cpl, if_pos h, List.length_cons]
        exact Nat.succ_le_succ (ih ys)
      · simp [cpl, h]

/-- `cpl` is bounded by the length of either argument. -/
theorem cpl_le_right : ∀ x y : List Char, cpl x y ≤ y.length := by
  intro x
  induction x with
  | nil => intro y; cases y <;> simp [cpl]
  | cons c xs ih =>
    intro y
    cases y with
    | nil => simp [cpl]
    | cons d ys =>
      by_cases h : c = d
      · simp only [cpl, if_pos h, List.length_cons]
        exact Nat.succ_le_succ (ih ys)
      · simp [cpl, h]

/-- The invariant carried by the longest-match scan: the best block is a
genuine common block of `a` and `b`. -/
def FlmInv (a b : List Char) (t : ℕ × ℕ × ℕ) : Prop :=
  t.2.2 ≤ cpl (a.drop t.1) (b.drop t.2.1)

theorem flmInv_foldl (a b : List Char) :
    ∀ (l : List (ℕ × ℕ)) (init : ℕ × ℕ × ℕ), FlmInv a b init →
      FlmInv a b (l.foldl (flmStep a b) init) := by
  intro l
  induction l with
  | nil => intro init h; exact h
  | cons p rest ih =>
    intro init h
    refine ih _ ?_
    unfold flmStep
    dsimp only
    split
    · exact Nat.le_refl _
    · exact h

/-- The block returned by `find_longest_match` is a common block. -/
theorem flm_valid (a b : List Char) : FlmInv a b (find_longest_match a b) :=
  flmInv_foldl a b _ _ (Nat.zero_le _)

/-- The scan's best length never decreases. -/
theorem flm_foldl_mono (a b : List Char) :
    ∀ (l : List (ℕ × ℕ)) (init : ℕ × ℕ × ℕ),
      init.2.2 ≤ (l.foldl (flmStep a b) init).2.2 := by
  intro l
  induction l with
  | nil => intro init; exact Nat.le_refl _
  | cons p rest ih =>
    intro init
    refine Nat.le_trans ?_ (ih (flmStep a b init p))
    unfold flmStep
    dsimp only
    split
    · exact Nat.le_of_lt (by assumption)
    · exact Nat.le_refl _

/-- The scan's result dominates the block at every visited position. -/
theorem flm_foldl_ge (a b : List Char) :
    ∀ (l : List (ℕ × ℕ)) (init : ℕ × ℕ × ℕ), ∀ p ∈ l,
      cpl (a.drop p.1) (b.drop p.2) ≤ (l.foldl (flmStep a b) init).2.2 := by
  intro l
  induction l with
  | nil => intro init p hp; cases hp
  | cons q rest ih =>
    intro init p hp
    rcases List.mem_cons.mp hp with h | h
    · subst h
      refine Nat.le_trans ?_ (flm_foldl_mono a b rest (flmStep a b init p))
      unfold flmStep
      dsimp only
      split
      · exact Nat.le_refl _
      · exact Nat.le_of_not_lt (by assumption)
    · exact ih _ p h

/-- `(0, 0)` is always among the candidate start positions. -/
theorem zero_mem_candPairs (la lb : ℕ) : (0, 0) ∈ candPairs la lb := by
  unfold candPairs
  refine List.mem_flatMap.mpr ⟨0, ?_, ?_⟩
  · exact List.mem_range.mpr (Nat.succ_pos la)
  · exact List.mem_map.mpr ⟨0, List.mem_range.mpr (Nat.succ_pos lb), rfl⟩

/-- The longest matching block is at least as long as the common prefix. -/
theorem flm_ge_cpl (a b : List Char) : cpl a b ≤ (find_longest_match a b).2.2 := by
  have h := flm_foldl_ge a b (candPairs a.length b.length) (0, 0, 0)
      (0, 0) (zero_mem_candPairs _ _)
  simpa using h

/-- A nonempty found block fits inside `a`. -/
theorem flm_le_left (a b : List Char) (h : (find_longest_match a b).2.2 ≠ 0) :
    (find_longest_match a b).1 + (find_longest_match a b).2.2 ≤ a.length := by
  have hv := flm_valid a b
  unfold FlmInv at hv
  have h1 : (find_longest_match a b).2.2 ≤ a.length - (find_longest_match a b).1 :=
    Nat.le_trans hv (Nat.le_trans (cpl_le_left _ _) (by rw [List.length_drop]))
  omega

/-- A nonempty found block fits inside `b`. -/
theorem flm_le_right (a b : List Char) (h : (find_longest_match a b).2.2 ≠ 0) :
    (find_longest_match a b).2.1 + (find_longest_match a b).2.2 ≤ b.length := by
  have hv := flm_valid a b
  unfold FlmInv at hv
  have h2 : (find_longest_match a b).2.2 ≤ b.length - (find_longest_match a b).2.1 :=
    Nat.le_trans hv (Nat.le_trans (cpl_le_right _ _) (by rw [List.length_drop]))
  omega

/-- `SequenceMatcher.get_matching_blocks` summed, with an explicit
recursion bound: total size of the matched blocks, found by recursing
left and right of the longest match.  The bound is a termination
device only; `matchTotal` below instantiates it so that it never runs
out (each recursive call strictly shrinks the combined length). -/
def matchTotalF : ℕ → List Char → List Char → ℕ
  | 0, _, _ => 0
  | fuel + 1, a, b =>
    let t := find_longest_match a b
    if t.2.2 = 0 then 0
    else
      t.2.2 + matchTotalF fuel (a.take t.1) (b.take t.2.1)
        + matchTotalF fuel (a.drop (t.1 + t.2.2)) (b.drop (t.2.1 + t.2.2))

/-- Total size of the matching blocks of `a` and `b`. -/
def matchTotal (a b : List Char) : ℕ := matchTotalF (a.length + b.length) a b

/-- Two empty strings have no matching blocks, whatever the bound. -/
theorem matchTotalF_nil : ∀ f : ℕ, matchTotalF f [] [] = 0 := by
  intro f
  cases f with
  | zero => rfl
  | succ f' =>
    show (let t := find_longest_match [] []
          if t.2.2 = 0 then 0
          else t.2.2 + matchTotalF f' (List.take t.1 []) (List.take t.2.1 [])
            + matchTotalF f' (List.drop (t.1 + t.2.2) []) (List.drop (t.2.1 + t.2.2) [])) = 0
    rw [show find_longest_match [] [] = (0, 0, 0) from rfl]
    simp

/-- `matchTotalF` does not depend on the bound once it is at least the
combined length of the strings. -/
theorem matchTotalF_congr : ∀ (f1 f2 : ℕ) (a b : List Char),
    a.length + b.length ≤ f1 → a.length + b.length ≤ f2 →
    matchTotalF f1 a b = matchTotalF f2 a b := by
  intro f1
  induction f1 with
  | zero =>
    intro f2 a b h1 h2
    have ha : a = [] := List.length_eq_zero.mp (by omega)
    have hb : b = [] := List.length_eq_zero.mp (by omega)
    subst ha; subst hb
    rw [matchTotalF_nil, matchTotalF_nil]
  | succ f1' ih =>
    intro f2 a b h1 h2
    cases f2 with
    | zero =>
      have ha : a = [] := List.length_eq_zero.mp (by omega)
      have hb : b = [] := List.length_eq_zero.mp (by omega)
      subst ha; subst hb
      rw [matchTotalF_nil, matchTotalF_nil]
    | succ f2' =>
      show (let t := find_longest_match a b
            if t.2.2 = 0 then 0
            else t.2.2 + matchTotalF f1' (a.take t.1) (b.take t.2.1)
              + matchTotalF f1' (a.drop (t.1 + t.2.2)) (b.drop (t.2.1 + t.2.2))) =
           (let t := find_longest_match a b
            if t.2.2 = 0 then 0
            else t.2.2 + matchTotalF f2' (a.take t.1) (b.take t.2.1)
              + matchTotalF f2' (a.drop (t.1 + t.2.2)) (b.drop (t.2.1 + t.2.2)))
      by_cases hk : (find_longest_match a b).2.2 = 0
      · simp [hk]
      · have hL := flm_le_left a b hk
        have hR := flm_le_right a b hk
        have hk1 : 1 ≤ (find_longest_match a b).2.2 := Nat.one_le_iff_ne_zero.mpr hk
        simp only [if_neg hk]
        have e1 : matchTotalF f1' (a.take (find_longest_match a b).1)
            (b.take (find_longest_match a b).2.1) =
            matchTotalF f2' (a.take (find_longest_match a b).1)
            (b.take (find_longest_match a b).2.1) := by
          apply ih
          · simp only [List.length_take]; omega
          · simp only [List.length_take]; omega
        have e2 : matchTotalF f1' (a.drop ((find_longest_match a b).1 + (find_longest_match a b).2.2))
            (b.drop ((find_longest_match a b).2.1 + (find_longest_match a b).2.2)) =
            matchTotalF f2' (a.drop ((find_longest_match a b).1 + (find_longest_match a b).2.2))
            (b.drop ((find_longest_match a b).2.1 + (find_longest_match a b).2.2)) := by
          apply ih
          · simp only [List.length_drop]; omega
          · simp only [List.length_drop]; omega
        rw [e1, e2]

/-- One-step unfolding of `matchTotal`: the longest block plus the
totals of the two remaining regions. -/
theorem matchTotal_eq (a b : List Char) :
    matchTotal a b =
      (if (find_longest_match a b).2.2 = 0 then 0
       else (find_longest_match a b).2.2
         + matchTotal (a.take (find_longest_match a b).1) (b.take (find_longest_match a b).2.1)
         + matchTotal (a.drop ((find_longest_match a b).1 + (find_longest_match a b).2.2))
             (b.drop ((find_longest_match a b).2.1 + (find_longest_match a b).2.2))) := by
  unfold matchTotal
  cases hn : a.length + b.length with
  | zero =>
    have ha : a = [] := List.length_eq_zero.mp (by omega)
    have hb : b = [] := List.length_eq_zero.mp (by omega)
    subst ha; subst hb
    rw [matchTotalF_nil, show find_longest_match [] [] = (0, 0, 0) from rfl]
    simp
  | succ n =>
    show (let t := find_longest_match a b
          if t.2.2 = 0 then 0
          else t.2.2 + matchTotalF n (a.take t.1) (b.take t.2.1)
            + matchTotalF n (a.drop (t.1 + t.2.2)) (b.drop (t.2.1 + t.2.2))) = _
    by_cases hk : (find_longest_match a b).2.2 = 0
    · simp [hk]
    · have hL := flm_le_left a b hk
      have hR := flm_le_right a b hk
      have hk1 : 1 ≤ (find_longest_match a b).2.2 := Nat.one_le_iff_ne_zero.mpr hk
      simp only [if_neg hk]
      have e1 := matchTotalF_congr n
        ((a.take (find_longest_match a b).1).length + (b.take (find_longest_match a b).2.1).length)
        (a.take (find_longest_match a b).1) (b.take (find_longest_match a b).2.1)
        (by simp only [List.length_take]; omega) (Nat.le_refl _)
      have e2 := matchTotalF_congr n
        ((a.drop ((find_longest_match a b).1 + (find_longest_match a b).2.2)).length
          + (b.drop ((find_longest_match a b).2.1 + (find_longest_match a b).2.2)).length)
        (a.drop ((find_longest_match a b).1 + (find_longest_match a b).2.2))
        (b.drop ((find_longest_match a b).2.1 + (find_longest_match a b).2.2))
        (by simp only [List.length_drop]; omega) (Nat.le_refl _)
      rw [e1, e2]

/-- The total match size is bounded by either string's length (the
matching blocks are disjoint in both strings). -/
theorem matchTotal_le : ∀ (n : ℕ) (a b : List Char), a.length + b.length = n →
    matchTotal a b ≤ a.length ∧ matchTotal a b ≤ b.length := by
  intro n
  induction n using Nat.strong_induction_on with
  | _ n ih =>
    intro a b hn
    rw [matchTotal_eq]
    by_cases hk : (find_longest_match a b).2.2 = 0
    · simp [hk]
    · have hL := flm_le_left a b hk
      have hR := flm_le_right a b hk
      have hk1 : 1 ≤ (find_longest_match a b).2.2 := Nat.one_le_iff_ne_zero.mpr hk
      simp only [if_neg hk]
      have ihl := ih ((a.take (find_longest_match a b).1).length
          + (b.take (find_longest_match a b).2.1).length)
        (by simp only [List.length_take]; omega)
        (a.take (find_longest_match a b).1) (b.take (find_longest_match a b).2.1) rfl
      have ihr := ih ((a.drop ((find_longest_match a b).1 + (find_longest_match a b).2.2)).length
          + (b.drop ((find_longest_match a b).2.1 + (find_longest_match a b).2.2)).length)
        (by simp only [List.length_drop]; omega)
        (a.drop ((find_longest_match a b).1 + (find_longest_match a b).2.2))
        (b.drop ((find_longest_match a b).2.1 + (find_longest_match a b).2.2)) rfl
      simp only [List.length_take, List.length_drop] at ihl ihr
      omega

/-- A common prefix bound transfers to equality of the prefixes. -/
theorem cpl_take : ∀ (x y : List Char) (k : ℕ), k ≤ cpl x y → x.take k = y.take k := by
  intro x
  induction x with
  | nil =>
    intro y k hk
    cases y <;> simp [cpl] at hk <;> simp [hk]
  | cons c xs ih =>
    intro y k hk
    cases y with
    | nil => simp [cpl] at hk; simp [hk]
    | cons d ys =>
      by_cases h : c = d
      · subst h
        simp [cpl] at hk
        cases k with
        | zero => simp
        | succ k' =>
          simp only [List.take_succ_cons]
          rw [ih ys k' (by omega)]
      · simp [cpl, h] at hk
        simp [hk]

/-- A full-length total match forces the two strings to be equal. -/
theorem matchTotal_full : ∀ (n : ℕ) (a b : List Char), a.length + b.length = n →
    matchTotal a b = a.length → a.length = b.length → a = b := by
  intro n
  induction n using Nat.strong_induction_on with
  | _ n ih =>
    intro a b hn hM hlen
    rw [matchTotal_eq] at hM
    by_cases hk : (find_longest_match a b).2.2 = 0
    · rw [if_pos hk] at hM
      have ha : a = [] := List.length_eq_zero.mp hM.symm
      have hb : b = [] := List.length_eq_zero.mp (by omega)
      rw [ha, hb]
    · have hL := flm_le_left a b hk
      have hR := flm_le_right a b hk
      have hk1 : 1 ≤ (find_longest_match a b).2.2 := Nat.one_le_iff_ne_zero.mpr hk
      rw [if_neg hk] at hM
      have hlA := matchTotal_le _
        (a.take (find_longest_match a b).1) (b.take (find_longest_match a b).2.1) rfl
      have hlB := matchTotal_le _
        (a.drop ((find_longest_match a b).1 + (find_longest_match a b).2.2))
        (b.drop ((find_longest_match a b).2.1 + (find_longest_match a b).2.2)) rfl
      simp only [List.length_take, List.length_drop] at hlA hlB
      -- the equalities forced by tightness
      have hij : (find_longest_match a b).1 = (find_longest_match a b).2.1 := by omega
      have hM1 : matchTotal (a.take (find_longest_match a b).1)
          (b.take (find_longest_match a b).2.1) = (find_longest_match a b).1 := by omega
      have hM2 : matchTotal
          (a.drop ((find_longest_match a b).1 + (find_longest_match a b).2.2))
          (b.drop ((find_longest_match a b).2.1 + (find_longest_match a b).2.2)) =
          a.length - ((find_longest_match a b).1 + (find_longest_match a b).2.2) := by omega
      -- left region
      have eL : a.take (find_longest_match a b).1 = b.take (find_longest_match a b).2.1 := by
        refine ih ((a.take (find_longest_match a b).1).length
            + (b.take (find_longest_match a b).2.1).length)
          (by simp only [List.length_take]; omega) _ _ rfl ?_ ?_
        · rw [hM1]; simp only [List.length_take]; omega
        · simp only [List.length_take]; omega
      -- right region
      have eR : a.drop ((find_longest_match a b).1 + (find_longest_match a b).2.2)
          = b.drop ((find_longest_match a b).2.1 + (find_longest_match a b).2.2) := by
        refine ih ((a.drop ((find_longest_match a b).1 + (find_longest_match a b).2.2)).length
            + (b.drop ((find_longest_match a b).2.1 + (find_longest_match a b).2.2)).length)
          (by simp only [List.length_drop]; omega) _ _ rfl ?_ ?_
        · rw [hM2]; simp only [List.length_drop]
        · simp only [List.length_drop]; omega
      -- middle block
      have hv := flm_valid a b
      unfold FlmInv at hv
      have eM : (a.drop (find_longest_match a b).1).take (find_longest_match a b).2.2
          = (b.drop (find_longest_match a b).2.1).take (find_longest_match a b).2.2 :=
        cpl_take _ _ _ hv
      -- reassemble
      conv_lhs => rw [← List.take_append_drop (find_longest_match a b).1 a,
        ← List.take_append_drop (find_longest_match a b).2.2
            (List.drop (find_longest_match a b).1 a)]
      conv_rhs => rw [← List.take_append_drop (find_longest_match a b).2.1 b,
        ← List.take_append_drop (find_longest_match a b).2.2
            (List.drop (find_longest_match a b).2.1 b)]
      rw [eL, eM, List.drop_drop, List.drop_drop, eR]

/-- `cpl` of a string with itself is its length. -/
theorem cpl_self : ∀ a : List Char, cpl a a = a.length := by
  intro a
  induction a with
  | nil => rfl
  | cons c rest ih => simp [cpl, ih]

/-- The longest matching block of a string with itself is the whole
string. -/
theorem flm_self (a : List Char) : find_longest_match a a = (0, 0, a.length) := by
  have hub : (find_longest_match a a).2.2 ≤ a.length := by
    have hv := flm_valid a a
    unfold FlmInv at hv
    exact Nat.le_trans hv (Nat.le_trans (cpl_le_left _ _) (by rw [List.length_drop]; omega))
  have hlb : a.length ≤ (find_longest_match a a).2.2 := by
    have := flm_ge_cpl a a
    rwa [cpl_self] at this
  have hk : (find_longest_match a a).2.2 = a.length := Nat.le_antisymm hub hlb
  rcases Nat.eq_zero_or_pos a.length with h0 | hpos
  · have ha : a = [] := List.length_eq_zero.mp h0
    subst ha
    rfl
  · have hk0 : (find_longest_match a a).2.2 ≠ 0 := by omega
    have hL := flm_le_left a a hk0
    have hR := flm_le_right a a hk0
    have hi : (find_longest_match a a).1 = 0 := by omega
    have hj : (find_longest_match a a).2.1 = 0 := by omega
    have : find_longest_match a a =
        ((find_longest_match a a).1, (find_longest_match a a).2.1,
          (find_longest_match a a).2.2) := rfl
    rw [this, hi, hj, hk]

/-- The total match of a string with itself is its length. -/
theorem matchTotal_self (a : List Char) : matchTotal a a = a.length := by
  rcases Nat.eq_zero_or_pos a.length with h0 | hpos
  · have ha : a = [] := List.length_eq_zero.mp h0
    subst ha
    rfl
  · rw [matchTotal_eq, flm_self]
    have hk : a.length ≠ 0 := by omega
    simp only [if_neg hk]
    simp [List.drop_length, show matchTotal [] [] = 0 from rfl]

/-- `difflib._calculate_ratio`: `2 * M / length`, or `1.0` when both
strings are empty. -/
def ratio (a b : List Char) : ℚ :=
  if a.length + b.length = 0 then 1
  else 2 * (matchTotal a b : ℚ) / ((a.length : ℚ) + (b.length : ℚ))

/-- `similarity(a, b) = SequenceMatcher(None, a, b).ratio()`. -/
def similarity (a b : List Char) : ℚ := ratio a b

/-! ## Answer grader -/

/-- `FUZZY_THRESHOLD = 0.88`. -/
def FUZZY_THRESHOLD : ℚ := 88 / 100

/-- `is_close_enough(user, correct, lang)`: normalize both strings for
the language, accept exact matches with confidence `1.0`, refuse fuzzy
matching when either normalized string has length at most 3, otherwise
accept exactly when the similarity reaches `FUZZY_THRESHOLD`. -/
def is_close_enough (user correct : List Char) (lang : String) : Bool × ℚ :=
  let u := if lang = "de" then de_normalize user else tr_normalize user
  let c := if lang = "de" then de_normalize correct else tr_normalize correct
  if u.isEmpty || c.isEmpty then (false, 0)
  else if u = c then (true, 1)
  else if u.length ≤ 3 || c.length ≤ 3 then (false, similarity u c)
  else (decide (FUZZY_THRESHOLD ≤ similarity u c), similarity u c)

/-! ## Similarity lemmas -/

/-- Closed form of `similarity` on a pair that is not doubly empty. -/
theorem similarity_eq (u c : List Char) (h : u.length + c.length ≠ 0) :
    similarity u c = 2 * (matchTotal u c : ℚ) / ((u.length + c.length : ℕ) : ℚ) := by
  unfold similarity ratio
  rw [if_neg h]
  push_cast
  ring

/-- Self-similarity is `1.0` for nonempty strings. -/
theorem similarity_self (a : List Char) (h : a ≠ []) : similarity a a = 1 := by
  have hl : a.length ≠ 0 := fun h0 => h (List.length_eq_zero.mp h0)
  rw [similarity_eq a a (by omega), matchTotal_self]
  have hq : ((a.length : ℚ)) ≠ 0 := Nat.cast_ne_zero.mpr hl
  push_cast
  field_simp
  ring

/-- `similarity("gehn", "gehen") = 8/9 ≈ 0.889`. -/
theorem sim_gehn : similarity "gehn".toList "gehen".toList = 8 / 9 := by
  have hm : matchTotal "gehn".toList "gehen".toList = 4 := by decide
  rw [similarity_eq _ _ (by decide), hm,
    show "gehn".toList.length + "gehen".toList.length = 9 from rfl]
  norm_num

/-- `similarity("zu", "du") = 1/2`. -/
theorem sim_zudu : similarity "zu".toList "du".toList = 1 / 2 := by
  have hm : matchTotal "zu".toList "du".toList = 1 := by decide
  rw [similarity_eq _ _ (by decide), hm,
    show "zu".toList.length + "du".toList.length = 4 from rfl]
  norm_num

/-- `similarity("abxcd", "cdabd") = 3/5`. -/
theorem sim_asym1 : similarity "abxcd".toList "cdabd".toList = 3 / 5 := by
  have hm : matchTotal "abxcd".toList "cdabd".toList = 3 := by decide
  rw [similarity_eq _ _ (by decide), hm,
    show "abxcd".toList.length + "cdabd".toList.length = 10 from rfl]
  norm_num

/-- `similarity("cdabd", "abxcd") = 2/5`: swapping the arguments changes
the greedy block decomposition. -/
theorem sim_asym2 : similarity "cdabd".toList "abxcd".toList = 2 / 5 := by
  have hm : matchTotal "cdabd".toList "abxcd".toList = 2 := by decide
  rw [similarity_eq _ _ (by decide), hm,
    show "cdabd".toList.length + "abxcd".toList.length = 10 from rfl]
  norm_num

/-! ## Grader branch lemmas -/

/-- The exact-match branch of the grader. -/
theorem ice_exact (user correct : List Char) (lang : String)
    (heq : (if lang = "de" then de_normalize user else tr_normalize user) =
           (if lang = "de" then de_normalize correct else tr_normalize correct))
    (hu : (if lang = "de" then de_normalize user else tr_normalize user) ≠ []) :
    is_close_enough user correct lang = (true, 1) := by
  simp only [is_close_enough]
  have hc : (if lang = "de" then de_normalize correct else tr_normalize correct) ≠ [] := by
    rw [← heq]; exact hu
  rw [if_neg (by simp [hu, hc]), if_pos heq]

/-- The short-string branch of the grader: no fuzzy acceptance when a
normalized string has length at most 3. -/
theorem ice_short (user correct : List Char) (lang : String)
    (hne : (if lang = "de" then de_normalize user else tr_normalize user) ≠
           (if lang = "de" then de_normalize correct else tr_normalize correct))
    (hu : (if lang = "de" then de_normalize user else tr_normalize user) ≠ [])
    (hc : (if lang = "de" then de_normalize correct else tr_normalize correct) ≠ [])
    (hlen : (if lang = "de" then de_normalize user else tr_normalize user).length ≤ 3 ∨
            (if lang = "de" then de_normalize correct else tr_normalize correct).length ≤ 3) :
    is_close_enough user correct lang =
      (false, similarity (if lang = "de" then de_normalize user else tr_normalize user)
        (if lang = "de" then de_normalize correct else tr_normalize correct)) := by
  simp only [is_close_enough]
  rw [if_neg (by simp [hu, hc]), if_neg hne, if_pos (by simpa using hlen)]

/-- The fuzzy branch of the grader: unequal strings both longer than 3. -/
theorem ice_fuzzy (user correct : List Char) (lang : String)
    (hne : (if lang = "de" then de_normalize user else tr_normalize user) ≠
           (if lang = "de" then de_normalize correct else tr_normalize correct))
    (hu : 3 < (if lang = "de" then de_normalize user else tr_normalize user).length)
    (hc : 3 < (if lang = "de" then de_normalize correct else tr_normalize correct).length) :
    is_close_enough user correct lang =
      (decide (FUZZY_THRESHOLD ≤
          similarity (if lang = "de" then de_normalize user else tr_normalize user)
            (if lang = "de" then de_normalize correct else tr_normalize correct)),
       similarity (if lang = "de" then de_normalize user else tr_normalize user)
         (if lang = "de" then de_normalize correct else tr_normalize correct)) := by
  simp only [is_close_enough]
  have hune : (if lang = "de" then de_normalize user else tr_normalize user) ≠ [] := by
    intro h0
    rw [h0] at hu
    simp at hu
  have hcne : (if lang = "de" then de_normalize correct else tr_normalize correct) ≠ [] := by
    intro h0
    rw [h0] at hc
    simp at hc
  rw [if_neg (by simp [hune, hcne]), if_neg hne, if_neg (by simp; omega)]

/-- The grader accepts `"gehn"` for target `"gehen"` in the source
language, with confidence `8/9`. -/
theorem ice_gehn : is_close_enough "gehn".toList "gehen".toList "de" = (true, 8 / 9) := by
  rw [ice_fuzzy "gehn".toList "gehen".toList "de" (by decide) (by decide) (by decide)]
  rw [show (if ("de" : String) = "de" then de_normalize "gehn".toList
        else tr_normalize "gehn".toList) = "gehn".toList from by decide,
      show (if ("de" : String) = "de" then de_normalize "gehen".toList
        else tr_normalize "gehen".toList) = "gehen".toList from by decide,
      sim_gehn]
  norm_num [FUZZY_THRESHOLD]

/-- The grader rejects `"zu"` for target `"du"` in the target language,
reporting similarity `1/2`. -/
theorem ice_zudu : is_close_enough "zu".toList "du".toList "tr" = (false, 1 / 2) := by
  rw [ice_short "zu".toList "du".toList "tr" (by decide) (by decide) (by decide) (by decide)]
  rw [show (if ("tr" : String) = "de" then de_normalize "zu".toList
        else tr_normalize "zu".toList) = "zu".toList from by decide,
      show (if ("tr" : String) = "de" then de_normalize "du".toList
        else tr_normalize "du".toList) = "du".toList from by decide,
      sim_zudu]

/-! ## Claims about the grader and the similarity scorer -/

/-- **C2.** For unequal normalized strings both of length greater
than 3, the grader accepts exactly when the similarity reaches the
fixed threshold `0.88`, and on acceptance the reported confidence is
that similarity; in particular `"gehn"` against target `"gehen"` in the
source language is accepted as a non-exact fuzzy match. -/
theorem claim_C2 :
    (∀ (user correct : List Char) (lang : String),
      (if lang = "de" then de_normalize user else tr_normalize user) ≠
          (if lang = "de" then de_normalize correct else tr_normalize correct) →
      3 < (if lang = "de" then de_normalize user else tr_normalize user).length →
      3 < (if lang = "de" then de_normalize correct else tr_normalize correct).length →
      is_close_enough user correct lang =
        (decide ((88 : ℚ) / 100 ≤
            similarity (if lang = "de" then de_normalize user else tr_normalize user)
              (if lang = "de" then de_normalize correct else tr_normalize correct)),
         similarity (if lang = "de" then de_normalize user else tr_normalize user)
           (if lang = "de" then de_normalize correct else tr_normalize correct))) ∧
    is_close_enough "gehn".toList "gehen".toList "de" = (true, 8 / 9) ∧
    de_normalize "gehn".toList ≠ de_normalize "gehen".toList := by
  refine ⟨?_, ice_gehn, by decide⟩
  intro user correct lang hne hu hc
  exact ice_fuzzy user correct lang hne hu hc

theorem claim_C2_witness :
    ((if ("de" : String) = "de" then de_normalize "gehn".toList
        else tr_normalize "gehn".toList) ≠
      (if ("de" : String) = "de" then de_normalize "gehen".toList
        else tr_normalize "gehen".toList)) ∧
    is_close_enough "gehn".toList "gehen".toList "de" =
      (decide ((88 : ℚ) / 100 ≤
          similarity (if ("de" : String) = "de" then de_normalize "gehn".toList
            else tr_normalize "gehn".toList)
            (if ("de" : String) = "de" then de_normalize "gehen".toList
              else tr_normalize "gehen".toList)),
       similarity (if ("de" : String) = "de" then de_normalize "gehn".toList
          else tr_normalize "gehn".toList)
         (if ("de" : String) = "de" then de_normalize "gehen".toList
           else tr_normalize "gehen".toList)) :=
  ⟨by decide, claim_C2.1 "gehn".toList "gehen".toList "de" (by decide) (by decide) (by decide)⟩

/-- **C3.** When either normalized string has length at most 3 (and
neither is empty), the grader accepts exactly on equality — with
confidence `1.0` — and never fuzzily; the pair's similarity is still
returned for confidence tracking; in particular `"zu"` against `"du"`
in the target language is rejected. -/
theorem claim_C3 :
    (∀ (user correct : List Char) (lang : String),
      (if lang = "de" then de_normalize user else tr_normalize user) ≠ [] →
      (if lang = "de" then de_normalize correct else tr_normalize correct) ≠ [] →
      ((if lang = "de" then de_normalize user else tr_normalize user).length ≤ 3 ∨
       (if lang = "de" then de_normalize correct else tr_normalize correct).length ≤ 3) →
      is_close_enough user correct lang =
        (decide ((if lang = "de" then de_normalize user else tr_normalize user) =
            (if lang = "de" then de_normalize correct else tr_normalize correct)),
         if (if lang = "de" then de_normalize user else tr_normalize user) =
            (if lang = "de" then de_normalize correct else tr_normalize correct) then 1
         else similarity (if lang = "de" then de_normalize user else tr_normalize user)
           (if lang = "de" then de_normalize correct else tr_normalize correct))) ∧
    is_close_enough "zu".toList "du".toList "tr" = (false, 1 / 2) := by
  refine ⟨?_, ice_zudu⟩
  intro user correct lang hu hc hlen
  by_cases heq : (if lang = "de" then de_normalize user else tr_normalize user) =
      (if lang = "de" then de_normalize correct else tr_normalize correct)
  · rw [ice_exact user correct lang heq hu]
    simp [heq]
  · rw [ice_short user correct lang heq hu hc hlen]
    simp [heq]

theorem claim_C3_witness :
    ((if ("tr" : String) = "de" then de_normalize "zu".toList
        else tr_normalize "zu".toList) ≠ []) ∧
    ((if ("tr" : String) = "de" then de_normalize "du".toList
        else tr_normalize "du".toList) ≠ []) ∧
    is_close_enough "zu".toList "du".toList "tr" =
      (decide ((if ("tr" : String) = "de" then de_normalize "zu".toList
          else tr_normalize "zu".toList) =
          (if ("tr" : String) = "de" then de_normalize "du".toList
            else tr_normalize "du".toList)),
       if (if ("tr" : String) = "de" then de_normalize "zu".toList
            else tr_normalize "zu".toList) =
          (if ("tr" : String) = "de" then de_normalize "du".toList
            else tr_normalize "du".toList) then 1
       else similarity (if ("tr" : String) = "de" then de_normalize "zu".toList
          else tr_normalize "zu".toList)
         (if ("tr" : String) = "de" then de_normalize "du".toList
           else tr_normalize "du".toList)) :=
  ⟨by decide, by decide,
    claim_C3.1 "zu".toList "du".toList "tr" (by decide) (by decide) (by decide)⟩

/-- **C4 (counterexample).** The similarity scorer is *not* symmetric:
`similarity("abxcd", "cdabd") = 0.6` but `similarity("cdabd", "abxcd")
= 0.4` — the greedy longest-block decomposition differs after swapping
the arguments. -/
theorem claim_C4_counterexample :
    similarity "abxcd".toList "cdabd".toList ≠ similarity "cdabd".toList "abxcd".toList := by
  rw [sim_asym1, sim_asym2]
  norm_num

/-- **C4 (amended).** The similarity scorer is self-identical:
`similarity(a, a) = 1.0` for every non-empty string `a`.  (Symmetry
fails in general, see the counterexample.) -/
theorem claim_C4_amended (a : List Char) (h : a ≠ []) : similarity a a = 1 :=
  similarity_self a h

theorem claim_C4_witness :
    "a".toList ≠ [] ∧ similarity "a".toList "a".toList = 1 :=
  ⟨by decide, claim_C4_amended "a".toList (by decide)⟩

/-! ## Acceptance forces high similarity; rejection forces low -/

/-- No fuzzy acceptance is possible on short strings: an unequal pair
of nonempty normalized strings with either length at most 3 has
similarity strictly below the threshold. -/
theorem similarity_short_lt (u c : List Char) (hne : u ≠ c) (hu : u ≠ []) (hc : c ≠ [])
    (hlen : u.length ≤ 3 ∨ c.length ≤ 3) : similarity u c < 88 / 100 := by
  have hul : u.length ≠ 0 := fun h => hu (List.length_eq_zero.mp h)
  have hcl : c.length ≠ 0 := fun h => hc (List.length_eq_zero.mp h)
  have hA := matchTotal_le (u.length + c.length) u c rfl
  by_contra hge
  push_neg at hge
  rw [similarity_eq u c (by omega)] at hge
  have hden : (0 : ℚ) < ((u.length + c.length : ℕ) : ℚ) := by
    exact_mod_cast Nat.pos_of_ne_zero (by omega)
  rw [div_le_div_iff (by norm_num) hden] at hge
  have h3 : 88 * (u.length + c.length) ≤ 2 * matchTotal u c * 100 := by
    exact_mod_cast hge
  have hfull : matchTotal u c = u.length ∧ u.length = c.length := by omega
  exact hne (matchTotal_full (u.length + c.length) u c rfl hfull.1 hfull.2)

/-- An accepted candidate's similarity is at least the threshold; a
rejected candidate's reported similarity is strictly below it. -/
theorem ice_cases (user correct : List Char) (lang : String) :
    ((is_close_enough user correct lang).1 = true →
      FUZZY_THRESHOLD ≤ (is_close_enough user correct lang).2) ∧
    ((is_close_enough user correct lang).1 = false →
      (is_close_enough user correct lang).2 < FUZZY_THRESHOLD) := by
  simp only [is_close_enough]
  set u := if lang = "de" then de_normalize user else tr_normalize user with hu
  set c := if lang = "de" then de_normalize correct else tr_normalize correct with hc
  by_cases h1 : (u.isEmpty || c.isEmpty) = true
  · rw [if_pos h1]
    exact ⟨fun h => by simp at h, fun _ => by norm_num [FUZZY_THRESHOLD]⟩
  · rw [if_neg h1]
    by_cases h2 : u = c
    · rw [if_pos h2]
      exact ⟨fun _ => by norm_num [FUZZY_THRESHOLD], fun h => by simp at h⟩
    · rw [if_neg h2]
      have hune : u ≠ [] := by
        intro h0
        apply h1
        rw [h0]
        simp
      have hcne : c ≠ [] := by
        intro h0
        apply h1
        rw [h0]
        simp
      by_cases h3 : (decide (u.length ≤ 3) || decide (c.length ≤ 3)) = true
      · rw [if_pos h3]
        refine ⟨fun h => by simp at h, fun _ => ?_⟩
        show similarity u c < FUZZY_THRESHOLD
        have h3' : u.length ≤ 3 ∨ c.length ≤ 3 := by simpa using h3
        exact similarity_short_lt u c h2 hune hcne h3'
      · rw [if_neg h3]
        constructor
        · intro h
          exact of_decide_eq_true h
        · intro h
          exact not_le.mp (of_decide_eq_false h)

/-! ## Translation-list parsing -/

/-- A separator character of `re.split(r"[;,/]+", raw)`. -/
def isSep (c : Char) : Bool := c = ';' || c = ',' || c = '/'

/-- `re.split(r"[;,/]+", raw)`: split on maximal runs of separators
(a separator followed by another separator contributes nothing; the last
separator of a run ends the current piece). -/
def splitSepRuns : List Char → List (List Char)
  | [] => [[]]
  | [c] => if isSep c then [[], []] else [[c]]
  | c :: d :: rest =>
    if isSep c then
      if isSep d then splitSepRuns (d :: rest)
      else [] :: splitSepRuns (d :: rest)
    else
      match splitSepRuns (d :: rest) with
      | p :: ps => (c :: p) :: ps
      | [] => [[c]]

/-- The `seen`-set de-duplication loop of `parse_translations`: keep a
part when its `tr_normalize` key has not been seen yet. -/
def dedupTr : List (List Char) → List (List Char) → List (List Char)
  | [], _ => []
  | t :: rest, seen =>
    if tr_normalize t ∈ seen then dedupTr rest seen
    else t :: dedupTr rest (tr_normalize t :: seen)

/-- `parse_translations(raw)`: split on `;`, `,`, `/` runs, strip each
part, drop empties, then de-duplicate by `tr_normalize` key keeping the
first occurrence. -/
def parse_translations (raw : List Char) : List (List Char) :=
  let out := ((splitSepRuns raw).map pyStrip).filter (fun p => ¬p.isEmpty)
  dedupTr out []

/-! ## Translation store (`translations` table)

The table carries a unique index on the exact pair
`(word_id, turkish)`; a violating `INSERT` raises `IntegrityError`,
which `add_translation` silently swallows. -/

/-- One `INSERT INTO translations` under the unique index
`uniq_word_tr ON translations(word_id, turkish)`: an exact duplicate
pair is ignored, anything else is appended. -/
def insertTranslation (store : List (ℤ × List Char)) (wid : ℤ) (t : List Char) :
    List (ℤ × List Char) :=
  if (wid, t) ∈ store then store else store ++ [(wid, t)]

/-- `add_translation(word_id, turkish)`: parse the raw input and insert
each part, ignoring duplicate-key failures. -/
def add_translation (store : List (ℤ × List Char)) (wid : ℤ) (raw : List Char) :
    List (ℤ × List Char) :=
  (parse_translations raw).foldl (fun st t => insertTranslation st wid t) store

/-! ## The answer-handling path of `play_question` -/

/-- The per-candidate grading loop of `play_question`: track the best
similarity and the first candidate achieving it (strict improvement),
and stop at the first accepted candidate. -/
def gradeScan (user : List Char) (lang : String) :
    List (List Char) → ℚ → Option (List Char) → Bool × ℚ × Option (List Char)
  | [], best, bt => (false, best, bt)
  | t :: rest, best, bt =>
    let r := is_close_enough user t lang
    let best' := if best < r.2 then r.2 else best
    let bt' := if best < r.2 then some t else bt
    if r.1 then (true, best', bt') else gradeScan user lang rest best' bt'

/-- The session-game state touched by one answer. -/
structure GameSt where
  score : ℤ
  idx : ℤ
deriving DecidableEq, Repr

/-- `advance_game(was_correct)`: bump the score on a correct answer and
move to the next question. -/
def advance_game (was_correct : Bool) (g : GameSt) : GameSt :=
  { score := if was_correct then g.score + 1 else g.score, idx := g.idx + 1 }

/-- The kind of flash message stored in `last_feedback`. -/
inductive FbKind
  | warn
  | ok
  | bad
deriving DecidableEq, Repr

/-- The data interpolated into the `last_feedback` message: its kind,
the exactness of an accepted answer (`ok` only), the similarity shown
(`ok` shows it only for non-exact matches, `bad` always, `warn` never),
and the new box number. -/
structure Feedback where
  kind : FbKind
  exact : Option Bool
  simShown : Option ℚ
  newBox : ℤ
deriving DecidableEq, Repr

/-- The `exact` test of `play_question`: the user's answer equals the
best target after normalization for the answer language. -/
def exactFlag (answer_lang : String) (user bt : List Char) : Bool :=
  (answer_lang = "de" && decide (de_normalize user = de_normalize bt))
    || (answer_lang = "tr" && decide (tr_normalize user = tr_normalize bt))

/-- The `POST` branch of `play_question` for the current word: an
answer that is empty after stripping is a pass (scored as incorrect,
`warn` feedback, no grading); otherwise the candidates are graded and
the word, feedback and game state are updated by the verdict. -/
def play_answer (w : WordRow) (correct_list : List (List Char)) (answer_lang : String)
    (raw : List Char) (now : ℤ) (g : GameSt) : WordRow × GameSt × Feedback :=
  let user_answer := pyStrip raw
  if user_answer.isEmpty then
    let w' := applyAnswer w false now
    (w', advance_game false g, ⟨FbKind.warn, none, none, w'.box⟩)
  else
    let r := gradeScan user_answer answer_lang correct_list 0 none
    if r.1 then
      let w' := applyAnswer w true now
      let ex := exactFlag answer_lang user_answer (r.2.2.getD [])
      (w', advance_game true g,
        ⟨FbKind.ok, some ex, if ex then none else some r.2.1, w'.box⟩)
    else
      let w' := applyAnswer w false now
      (w', advance_game false g, ⟨FbKind.bad, none, some r.2.1, w'.box⟩)

/-! ## The grading loop -/

/-- If every candidate before `ck` is rejected and `ck` is accepted,
the loop short-circuits at `ck` and reports `ck` with its own
similarity — a rejected candidate's similarity is below the threshold,
an accepted one's at least it, so the best-so-far tracker lands on
`ck`. -/
theorem gradeScan_accept (user : List Char) (lang : String) (ck : List Char) :
    ∀ (pre post : List (List Char)) (best : ℚ) (bt : Option (List Char)),
      (∀ t ∈ pre, (is_close_enough user t lang).1 = false) →
      (is_close_enough user ck lang).1 = true →
      best < FUZZY_THRESHOLD →
      gradeScan user lang (pre ++ ck :: post) best bt =
        (true, (is_close_enough user ck lang).2, some ck) := by
  intro pre
  induction pre with
  | nil =>
    intro post best bt _ hck hbest
    have hge := (ice_cases user ck lang).1 hck
    have hlt : best < (is_close_enough user ck lang).2 := lt_of_lt_of_le hbest hge
    simp only [List.nil_append, gradeScan]
    rw [hck]
    simp [if_pos hlt]
  | cons t pre' ih =>
    intro post best bt hpre hck hbest
    have hf : (is_close_enough user t lang).1 = false :=
      hpre t (List.mem_cons_self _ _)
    have hlt2 := (ice_cases user t lang).2 hf
    simp only [List.cons_append, gradeScan]
    rw [hf]
    simp only [Bool.false_eq_true, if_false]
    by_cases hb : best < (is_close_enough user t lang).2
    · simp only [if_pos hb]
      exact ih post (is_close_enough user t lang).2 (some t)
        (fun t' ht' => hpre t' (List.mem_cons_of_mem _ ht')) hck hlt2
    · simp only [if_neg hb]
      exact ih post best bt
        (fun t' ht' => hpre t' (List.mem_cons_of_mem _ ht')) hck hbest

/-- **C5.** If some candidate triggers acceptance, the verdict reports
that candidate as the matched target with that candidate's own
similarity as the confidence, evaluation short-circuits there (the
result does not depend on later candidates), and the exactness flag is
true exactly when the accepted candidate equals the answer after
normalization. -/
theorem claim_C5 (user : List Char) (lang : String) (pre post : List (List Char))
    (ck : List Char) (hlang : lang = "de" ∨ lang = "tr")
    (hpre : ∀ t ∈ pre, (is_close_enough user t lang).1 = false)
    (hck : (is_close_enough user ck lang).1 = true) :
    gradeScan user lang (pre ++ ck :: post) 0 none =
      (true, (is_close_enough user ck lang).2, some ck) ∧
    (exactFlag lang user ck = true ↔
      (if lang = "de" then de_normalize user else tr_normalize user) =
        (if lang = "de" then de_normalize ck else tr_normalize ck)) := by
  constructor
  · exact gradeScan_accept user lang ck pre post 0 none hpre hck
      (by norm_num [FUZZY_THRESHOLD])
  · rcases hlang with h | h <;> subst h <;> simp [exactFlag]

theorem claim_C5_witness :
    (("de" : String) = "de" ∨ ("de" : String) = "tr") ∧
    (∀ t ∈ ([] : List (List Char)), (is_close_enough "gehn".toList t "de").1 = false) ∧
    (is_close_enough "gehn".toList "gehen".toList "de").1 = true ∧
    (gradeScan "gehn".toList "de" ([] ++ "gehen".toList :: ["laufen".toList]) 0 none =
      (true, (is_close_enough "gehn".toList "gehen".toList "de").2, some "gehen".toList) ∧
     (exactFlag "de" "gehn".toList "gehen".toList = true ↔
      (if ("de" : String) = "de" then de_normalize "gehn".toList
        else tr_normalize "gehn".toList) =
        (if ("de" : String) = "de" then de_normalize "gehen".toList
          else tr_normalize "gehen".toList))) :=
  ⟨Or.inl rfl, by simp, by rw [ice_gehn],
    claim_C5 "gehn".toList "de" [] ["laufen".toList] "gehen".toList (Or.inl rfl)
      (by simp) (by rw [ice_gehn])⟩

/-! ## Basic scheduler lemmas -/

/-- Box 1 is due immediately. -/
theorem schedule_next_one (now : ℤ) : schedule_next now 1 = now := by
  simp [schedule_next, add_days_iso, dictGetD, LEITNER_INTERVALS_DAYS, List.find?]

/-! ## Claims about the Leitner scheduler -/

/-- **C1.** For every box `b ∈ {1,…,5}` and every verdict, the update
sets the new box to `min(5, b+1)` on a correct answer and to `1` on an
incorrect one, and the next-due timestamp to the current time plus the
new box's interval in days from the lookup `{1:0, 2:1, 3:3, 4:7, 5:14}`. -/
theorem claim_C1 (now b : ℤ) (h1 : 1 ≤ b) (h2 : b ≤ 5) (v : Bool) :
    (update_after_answer v b now).1 = (if v then min 5 (b + 1) else 1) ∧
    (update_after_answer v b now).2 = now + 86400 *
      (if (update_after_answer v b now).1 = 1 then 0
       else if (update_after_answer v b now).1 = 2 then 1
       else if (update_after_answer v b now).1 = 3 then 3
       else if (update_after_answer v b now).1 = 4 then 7
       else 14) := by
  rcases v with _ | _ <;> interval_cases b <;>
    simp [update_after_answer, schedule_next, add_days_iso, dictGetD,
      LEITNER_INTERVALS_DAYS, List.find?]

theorem claim_C1_witness :
    (1 : ℤ) ≤ 3 ∧ (3 : ℤ) ≤ 5 ∧
    ((update_after_answer true 3 0).1 = (if true then min 5 (3 + 1) else 1) ∧
     (update_after_answer true 3 0).2 = 0 + 86400 *
       (if (update_after_answer true 3 0).1 = 1 then 0
        else if (update_after_answer true 3 0).1 = 2 then 1
        else if (update_after_answer true 3 0).1 = 3 then 3
        else if (update_after_answer true 3 0).1 = 4 then 7
        else 14)) :=
  ⟨by norm_num, by norm_num, claim_C1 0 3 (by norm_num) (by norm_num) true⟩

/-- **C10.** `schedule_next` is total over all integer boxes: outside
`{1,…,5}` the interval lookup falls back to `0` days, so the item is due
immediately and no error is raised. -/
theorem claim_C10 (now box : ℤ)
    (h : box ≠ 1 ∧ box ≠ 2 ∧ box ≠ 3 ∧ box ≠ 4 ∧ box ≠ 5) :
    schedule_next now box = now := by
  obtain ⟨n1, n2, n3, n4, n5⟩ := h
  simp [schedule_next, add_days_iso, dictGetD, LEITNER_INTERVALS_DAYS, List.find?,
    Ne.symm n1, Ne.symm n2, Ne.symm n3, Ne.symm n4, Ne.symm n5]

theorem claim_C10_witness :
    ((42 : ℤ) ≠ 1 ∧ (42 : ℤ) ≠ 2 ∧ (42 : ℤ) ≠ 3 ∧ (42 : ℤ) ≠ 4 ∧ (42 : ℤ) ≠ 5) ∧
    schedule_next 1000 42 = 1000 :=
  ⟨by norm_num, claim_C10 1000 42 (by norm_num)⟩

/-! ## Claims about translation parsing and the translation store -/

/-- The de-duplication loop returns a sublist of its input (order and
casing of the kept parts preserved). -/
theorem dedupTr_sublist : ∀ l seen : List (List Char), (dedupTr l seen).Sublist l := by
  intro l
  induction l with
  | nil => intro seen; simp [dedupTr]
  | cons t rest ih =>
    intro seen
    unfold dedupTr
    split
    · exact (ih seen).trans (List.sublist_cons_self t rest)
    · exact List.Sublist.cons₂ t (ih _)

/-- The de-duplication loop produces pairwise distinct normalization
keys, none of which was previously seen. -/
theorem dedupTr_keys : ∀ l seen : List (List Char),
    ((dedupTr l seen).map tr_normalize).Nodup ∧
      ∀ k ∈ (dedupTr l seen).map tr_normalize, k ∉ seen := by
  intro l
  induction l with
  | nil => intro seen; simp [dedupTr]
  | cons t rest ih =>
    intro seen
    unfold dedupTr
    split
    · exact ⟨(ih seen).1, (ih seen).2⟩
    · rename_i hmem
      have h' := ih (tr_normalize t :: seen)
      constructor
      · refine List.nodup_cons.mpr ⟨?_, h'.1⟩
        intro hk
        exact (h'.2 _ hk) (List.mem_cons_self _ _)
      · intro k hk
        rcases List.mem_cons.mp hk with h | h
        · subst h; exact hmem
        · intro hs
          exact (h'.2 _ h) (List.mem_cons_of_mem _ hs)

/-- **C8.** Translation-list parsing splits on `;`, `,`, `/`, trims,
drops empties, and de-duplicates case/whitespace-insensitively while
preserving first-seen casing and input order; in particular
`"elma, elma ağacı; elma"` parses to exactly `["elma", "elma ağacı"]`. -/
theorem claim_C8 :
    parse_translations "elma, elma ağacı; elma".toList
        = ["elma".toList, "elma ağacı".toList] ∧
    (∀ raw : List Char, ((parse_translations raw).map tr_normalize).Nodup) ∧
    (∀ raw : List Char, (parse_translations raw).Sublist
        (((splitSepRuns raw).map pyStrip).filter (fun p => ¬p.isEmpty))) := by
  refine ⟨by decide, ?_, ?_⟩
  · intro raw
    exact (dedupTr_keys _ []).1
  · intro raw
    exact dedupTr_sublist _ []

/-- **C7 (counterexample).** The stored-translation invariant is *not*
normalized-unique: the store `[(1, "Elma")]` already contains a
translation whose `tr_normalize` key equals that of `"elma"`, yet adding
`"elma"` changes the stored set (the unique index compares exact text). -/
theorem claim_C7_counterexample :
    tr_normalize "elma".toList = tr_normalize "Elma".toList ∧
    add_translation [((1 : ℤ), "Elma".toList)] 1 "elma".toList
      ≠ [((1 : ℤ), "Elma".toList)] := by
  constructor
  · decide
  · decide

/-- **C7 (amended).** Duplicates are ignored only up to *exact* text:
adding translations all of which are already stored verbatim for the
item leaves the stored set unchanged and raises no error.  (Within a
single call the parsed list is additionally de-duplicated by
`tr_normalize` key, see C8.) -/
theorem claim_C7_amended (store : List (ℤ × List Char)) (wid : ℤ) (raw : List Char)
    (h : ∀ t ∈ parse_translations raw, (wid, t) ∈ store) :
    add_translation store wid raw = store := by
  unfold add_translation
  revert h
  generalize parse_translations raw = ts
  induction ts with
  | nil => intro h; rfl
  | cons t rest ih =>
    intro h
    have hstep : insertTranslation store wid t = store := by
      unfold insertTranslation
      rw [if_pos (h t (List.mem_cons_self _ _))]
    rw [List.foldl_cons, hstep]
    exact ih (fun t' ht' => h t' (List.mem_cons_of_mem _ ht'))

theorem claim_C7_witness :
    (∀ t ∈ parse_translations "elma".toList, ((1 : ℤ), t) ∈ [((1 : ℤ), "elma".toList)]) ∧
    add_translation [((1 : ℤ), "elma".toList)] 1 "elma".toList
      = [((1 : ℤ), "elma".toList)] :=
  ⟨by decide, claim_C7_amended [((1 : ℤ), "elma".toList)] 1 "elma".toList (by decide)⟩

/-! ## Claim about the empty-answer (pass) path -/

/-- **C9.** An answer that is empty after trimming is a deliberate pass
for every current item and every candidate list (including an empty
one): the box demotes to 1, the wrong counter increments, the grader is
not consulted (the feedback carries no similarity), the feedback kind
signals a skip, and the call is total. -/
theorem claim_C9 (w : WordRow) (correct_list : List (List Char)) (lang : String)
    (raw : List Char) (now : ℤ) (g : GameSt) (h : (pyStrip raw).isEmpty) :
    play_answer w correct_list lang raw now g =
      ({ box := 1, correct_count := w.correct_count, wrong_count := w.wrong_count + 1,
         updated_at := now, last_seen_at := now, next_due_at := now },
       { score := g.score, idx := g.idx + 1 },
       ⟨FbKind.warn, none, none, 1⟩) := by
  unfold play_answer
  rw [if_pos h]
  unfold applyAnswer update_after_answer advance_game
  simp [schedule_next_one]

theorem claim_C9_witness :
    (pyStrip "   ".toList).isEmpty = true ∧
    play_answer ⟨3, 10, 2, 0, 0, 0⟩ [] "tr" "   ".toList 1000 ⟨4, 7⟩ =
      ({ box := 1, correct_count := 10, wrong_count := 3,
         updated_at := 1000, last_seen_at := 1000, next_due_at := 1000 },
       { score := 4, idx := 8 },
       ⟨FbKind.warn, none, none, 1⟩) :=
  ⟨by decide, claim_C9 ⟨3, 10, 2, 0, 0, 0⟩ [] "tr" "   ".toList 1000 ⟨4, 7⟩ (by decide)⟩

/-! ## Claim about normalizer idempotence -/

/-- **C6.** Normalization is idempotent for both languages: for every
input string, `de_normalize (de_normalize x) = de_normalize x` (trim,
lower-case, whitespace collapse, plus the four diacritic-to-digraph
substitutions) and `tr_normalize (tr_normalize x) = tr_normalize x`
(trim, lower-case, whitespace collapse only). -/
theorem claim_C6 (x : List Char) :
    de_normalize (de_normalize x) = de_normalize x ∧
    tr_normalize (tr_normalize x) = tr_normalize x :=
  ⟨de_normalize_idem x, tr_normalize_idem x⟩

end GermanTurkce
